import Mathlib

/-!
Shallow embedding of src/stars.py (Isolated Stars).

Modelling conventions:

* Python numbers supplied as coordinates or threshold are modelled as
  rationals (every Python float is a rational); a node's coordinate pair
  keeps its raw value, exactly as the source stores the tuple unchanged.
* Python's builtin int() truncates toward zero; pyInt models it on ℚ.
* calculate_dist returns math.sqrt of an exact integer; it is modelled as
  the real square root Real.sqrt.  The executable comparison
  distance < iso_distance used by load_graph is modelled by the decidable
  test distLt, proved equivalent to the real comparison in distLt_iff.
* Graph.nodes is a Python set of mutable Node objects keyed (hash and
  equality) by the coordinate tuple.  The model stores the nodes as a list
  in insertion order; every place the source iterates over graph.nodes,
  the model iterates over sigma graph.nodes, where sigma is a parameter
  standing for the set's iteration order, which Python leaves unspecified.
  An admissible order is any permutation (IterOrder).  Nodes are mutated
  in place in the source; the model rewrites the node list by name
  (names are unique, since add_node rejects duplicates).
* WeightedEdge stores the distance field only as the squared distance
  sq_dist (an integer), since the float distance stored by the source is
  never read by any code path; only the edge's existence and the
  membership checks of add_edge are observable.
* Exceptions (the ValueError raises) are modelled with Except String.
-/

/-- Python's builtin int() conversion on a rational: truncation toward zero. -/
def pyInt (q : ℚ) : ℤ := if 0 ≤ q then ⌊q⌋ else ⌈q⌉

/-- A node of the graph: the coordinate tuple (self.name), the position in the
original input list (self.index) and the isolation flag (self.is_iso, default
True at construction). -/
structure Node where
  name : ℚ × ℚ
  index : ℕ
  is_iso : Bool
deriving DecidableEq

/-- Node.change_iso from the source: sets self.is_iso to False. -/
def Node.change_iso (n : Node) : Node := { n with is_iso := false }

/-- An edge of the graph (class WeightedEdge).  The source stores the float
distance math.sqrt(sq); the model stores the exact squared distance, which is
never read back by any code reachable from isolated. -/
structure WeightedEdge where
  src : Node
  dest : Node
  dist_sq : ℤ
deriving DecidableEq

/-- The graph (class Graph): self.nodes, a set of nodes keyed by coordinate
tuple, kept here as a list in insertion order; self.edges, a dict from a
node's key to its outgoing edge list, kept as an association list keyed by
the coordinate tuple. -/
structure Graph where
  nodes : List Node
  edges : List ((ℚ × ℚ) × List WeightedEdge)
deriving DecidableEq

/-- Graph.has_node / the membership test node in self.nodes: Python set
membership uses Node.__hash__ and Node.__eq__, which compare self.name. -/
def Graph.has_node (g : Graph) (n : Node) : Bool :=
  g.nodes.any fun m => decide (m.name = n.name)

/-- Graph.add_node: raises ValueError('Duplicate node') when a node with the
same coordinate tuple is already present, otherwise inserts the node and
creates its empty edge list. -/
def Graph.add_node (g : Graph) (node : Node) : Except String Graph :=
  if g.has_node node then Except.error "Duplicate node"
  else Except.ok { nodes := g.nodes ++ [node],
                   edges := g.edges ++ [(node.name, [])] }

/-- Graph.add_edge: raises ValueError when either endpoint is not in the
graph, otherwise appends a fresh WeightedEdge with the same fields to the
source node's edge list. -/
def Graph.add_edge (g : Graph) (edge : WeightedEdge) : Except String Graph :=
  if ¬ (g.has_node edge.src) then Except.error "Source node not in graph"
  else if ¬ (g.has_node edge.dest) then Except.error "Destination node not in graph"
  else Except.ok { g with
    edges := g.edges.map fun p =>
      if p.1 = edge.src.name
      then (p.1, p.2 ++ [WeightedEdge.mk edge.src edge.dest edge.dist_sq])
      else p }

/-- The exact integer (x1-x2)^2 + (y1-y2)^2 computed by calculate_dist after
the int() truncations of the four coordinates. -/
def sq_dist (a b : Node) : ℤ :=
  (pyInt a.name.1 - pyInt b.name.1) ^ 2 + (pyInt a.name.2 - pyInt b.name.2) ^ 2

/-- calculate_dist from the source: truncates each coordinate with int() and
returns math.sqrt((x1-x2)**2 + (y1-y2)**2), modelled as the real square
root of the exact integer sq_dist. -/
noncomputable def calculate_dist (a b : Node) : ℝ :=
  Real.sqrt ((sq_dist a b : ℤ) : ℝ)

/-- Decidable form of the comparison calculate_dist a b < q performed by
load_graph (see distLt_iff): the square root of the nonnegative integer
sq_dist a b is below q iff q is positive and sq_dist a b < q^2. -/
def distLt (a b : Node) (q : ℚ) : Bool :=
  decide (0 < q) && decide ((sq_dist a b : ℚ) < q ^ 2)

/-- Current isolation flag of the node named c in the node list: models
reading is_iso through a live reference to a mutable Node object. -/
def flagOf (nodes : List Node) (c : ℚ × ℚ) : Bool :=
  match nodes.find? (fun m => decide (m.name = c)) with
  | some m => m.is_iso
  | none => true

/-- In-place mutation old_node.change_iso() seen through the containing set:
rewrites the node with name c to its change_iso image. -/
def setIsoFalse (nodes : List Node) (c : ℚ × ℚ) : List Node :=
  nodes.map fun m => if m.name = c then m.change_iso else m

/-- The inner loop of load_graph, iterating over the given snapshot of the
set iteration sequence: skips the node equal (by name) to new_node, adds the
edge new -> old, and, when the new node's current flag is still True and the
distance test holds, clears the flags of both the new and the old node.
The close argument abstracts the test calculate_dist new old < iso_distance;
load_graph instantiates it with distLt. -/
def pairLoop (close : Node → Node → Bool) (new : Node) :
    List Node → Graph → Except String Graph
  | [], g => Except.ok g
  | old :: rest, g =>
    if old.name = new.name then pairLoop close new rest g
    else
      match g.add_edge (WeightedEdge.mk new old (sq_dist new old)) with
      | Except.error e => Except.error e
      | Except.ok g1 =>
        if flagOf g1.nodes new.name && close new old then
          pairLoop close new rest
            { g1 with nodes := setIsoFalse (setIsoFalse g1.nodes new.name) old.name }
        else pairLoop close new rest g1

/-- The outer loop of load_graph over the enumerated input list: constructs
the node for the current tuple and index, inserts it (raising on duplicate),
then runs the inner loop over the iteration sequence sigma of the current
node set (which already contains the new node, skipped by name). -/
def loadLoop (sigma : List Node → List Node) (close : Node → Node → Bool) :
    List (ℚ × ℚ) → ℕ → Graph → Except String Graph
  | [], _, g => Except.ok g
  | t :: rest, index, g =>
    let new : Node := Node.mk t index true
    match g.add_node new with
    | Except.error e => Except.error e
    | Except.ok g1 =>
      match pairLoop close new (sigma g1.nodes) g1 with
      | Except.error e => Except.error e
      | Except.ok g2 => loadLoop sigma close rest (index + 1) g2

/-- load_graph generic in the pair test close (the source's comparison
distance < iso_distance). -/
def load_graphC (sigma : List Node → List Node) (close : Node → Node → Bool)
    (l : List (ℚ × ℚ)) : Except String Graph :=
  loadLoop sigma close l 0 (Graph.mk [] [])

/-- load_graph from the source, with the set iteration order sigma made
explicit and the threshold a rational (a Python float). -/
def load_graph (sigma : List Node → List Node) (l : List (ℚ × ℚ))
    (iso_distance : ℚ) : Except String Graph :=
  load_graphC sigma (fun a b => distLt a b iso_distance) l

/-- isolated generic in the pair test: loads the graph and collects, in the
set iteration order, the indices of nodes whose flag is still True. -/
def isolatedC (sigma : List Node → List Node) (close : Node → Node → Bool)
    (star_list : List (ℚ × ℚ)) : Except String (List ℕ) :=
  match load_graphC sigma close star_list with
  | Except.error e => Except.error e
  | Except.ok g =>
    Except.ok (((sigma g.nodes).filter (fun n => n.is_iso)).map Node.index)

/-- isolated from the source: star_list is the input list of coordinate
tuples, dist_min the threshold; returns the indices of the isolated stars,
or the propagated ValueError. -/
def isolated (sigma : List Node → List Node) (star_list : List (ℚ × ℚ))
    (dist_min : ℚ) : Except String (List ℕ) :=
  isolatedC sigma (fun a b => distLt a b dist_min) star_list

/-- Admissible set iteration orders: Python guarantees only that iterating a
set visits each element exactly once, i.e. yields a permutation. -/
def IterOrder (sigma : List Node → List Node) : Prop :=
  ∀ l, List.Perm (sigma l) l

/-- The truncated coordinate pair of a node, as a point of the Euclidean
plane. -/
noncomputable def toPoint (n : Node) : EuclideanSpace ℝ (Fin 2) :=
  ![((pyInt n.name.1 : ℤ) : ℝ), ((pyInt n.name.2 : ℤ) : ℝ)]

/-- The index-and-name view of a node: the part of the node state that no
operation of the program ever mutates. -/
def idxName (n : Node) : ℕ × (ℚ × ℚ) := (n.index, n.name)

/-- The nodes constructed by load_graph for the input tuples, in input order
starting at index k, before any flag mutation: each is built with is_iso
defaulted to True. -/
def newNodes (k : ℕ) : List (ℚ × ℚ) → List Node
  | [] => []
  | t :: rest => Node.mk t k true :: newNodes (k + 1) rest

/-- HasDupFrom seen l holds when consuming l after having already seen the
keys in seen meets a coordinate pair equal to an earlier one. -/
def HasDupFrom (seen : List (ℚ × ℚ)) : List (ℚ × ℚ) → Prop
  | [] => False
  | t :: rest => t ∈ seen ∨ HasDupFrom (seen ++ [t]) rest

/-- Shadow ns ms: ms is ns with the is_iso flag of some of the nodes cleared
(each node is either unchanged or hit by change_iso); names, indices and
positions are untouched.  This is the precise sense in which the program
only ever moves flags from True to False. -/
def Shadow : List Node → List Node → Prop
  | [], [] => True
  | a :: ns, b :: ms => (b = a ∨ b = a.change_iso) ∧ Shadow ns ms
  | _, _ => False

theorem HasDupFrom_iff : ∀ (l seen : List (ℚ × ℚ)),
    HasDupFrom seen l ↔ (∃ t ∈ l, t ∈ seen) ∨ ¬ l.Nodup
  | [], seen => by simp [HasDupFrom]
  | t :: rest, seen => by
    simp only [HasDupFrom, HasDupFrom_iff rest (seen ++ [t]), List.nodup_cons,
      List.mem_append, List.mem_singleton, List.mem_cons, not_and_or, not_not,
      List.not_mem_nil, or_false]
    constructor
    · rintro (h | (⟨s, hs, hseen | hst⟩ | h))
      · exact Or.inl ⟨t, Or.inl rfl, h⟩
      · exact Or.inl ⟨s, Or.inr hs, hseen⟩
      · exact Or.inr (Or.inl (hst ▸ hs))
      · exact Or.inr (Or.inr h)
    · rintro (⟨s, hs | hs, hseen⟩ | (h | h))
      · exact Or.inl (hs ▸ hseen)
      · exact Or.inr (Or.inl ⟨s, hs, Or.inl hseen⟩)
      · exact Or.inr (Or.inl ⟨t, h, Or.inr rfl⟩)
      · exact Or.inr (Or.inr h)

theorem newNodes_map_index : ∀ (l : List (ℚ × ℚ)) (k : ℕ),
    (newNodes k l).map Node.index = List.range' k l.length
  | [], _ => rfl
  | t :: rest, k => by
    simp [newNodes, List.range'_succ, newNodes_map_index rest (k + 1)]

theorem perm_pair_cases {α : Type _} {l : List α} {a b : α}
    (h : l.Perm [a, b]) : l = [a, b] ∨ l = [b, a] := by
  have hlen : l.length = 2 := by simpa using h.length_eq
  cases l with
  | nil => simp at hlen
  | cons x l' =>
    cases l' with
    | nil => simp at hlen
    | cons y l'' =>
      cases l'' with
      | cons z tl => simp at hlen
      | nil =>
        have hx : x ∈ [a, b] := h.subset (by simp)
        rcases (by simpa using hx : x = a ∨ x = b) with rfl | rfl
        · left
          have h2 : [y].Perm [b] := h.cons_inv
          simp [List.perm_singleton.mp h2]
        · right
          have h2 : [y].Perm [a] := (h.trans (List.Perm.swap _ _ _)).cons_inv
          simp [List.perm_singleton.mp h2]

theorem isolatedC_ok_iff {sigma : List Node → List Node}
    {close : Node → Node → Bool} {l : List (ℚ × ℚ)} {r : List ℕ} :
    isolatedC sigma close l = Except.ok r ↔
      ∃ g, load_graphC sigma close l = Except.ok g ∧
        r = ((sigma g.nodes).filter (fun n => n.is_iso)).map Node.index := by
  unfold isolatedC
  cases h : load_graphC sigma close l with
  | error e => simp [h]
  | ok g => simp [h, eq_comm]

theorem isolatedC_error_iff {sigma : List Node → List Node}
    {close : Node → Node → Bool} {l : List (ℚ × ℚ)} :
    (∃ e, isolatedC sigma close l = Except.error e) ↔
      (∃ e, load_graphC sigma close l = Except.error e) := by
  unfold isolatedC
  cases h : load_graphC sigma close l with
  | error e => simp [h]
  | ok g => simp [h]

theorem distLt_iff (a b : Node) (q : ℚ) :
    distLt a b q = true ↔ calculate_dist a b < (q : ℝ) := by
  unfold distLt calculate_dist
  rcases le_or_lt q 0 with h | h
  · constructor
    · intro hq
      simp only [Bool.and_eq_true, decide_eq_true_eq] at hq
      exact absurd hq.1 (not_lt.mpr h)
    · intro hlt
      exact absurd (lt_of_le_of_lt (Real.sqrt_nonneg _) hlt)
        (not_lt.mpr (by exact_mod_cast h))
  · have hq' : (0 : ℝ) < (q : ℝ) := by exact_mod_cast h
    rw [Real.sqrt_lt' hq']
    simp only [Bool.and_eq_true, decide_eq_true_eq]
    constructor
    · rintro ⟨-, h2⟩
      exact_mod_cast h2
    · intro h2
      exact ⟨h, by exact_mod_cast h2⟩

theorem sq_dist_comm (a b : Node) : sq_dist a b = sq_dist b a := by
  unfold sq_dist; ring

theorem change_iso_name (n : Node) : n.change_iso.name = n.name := rfl

theorem change_iso_index (n : Node) : n.change_iso.index = n.index := rfl

theorem has_node_true_iff (g : Graph) (n : Node) :
    g.has_node n = true ↔ n.name ∈ g.nodes.map Node.name := by
  simp only [Graph.has_node, List.any_eq_true, decide_eq_true_eq, List.mem_map]

theorem add_node_ok {g : Graph} {n : Node} {g' : Graph}
    (h : g.add_node n = Except.ok g') :
    g'.nodes = g.nodes ++ [n] ∧ n.name ∉ g.nodes.map Node.name := by
  unfold Graph.add_node at h
  by_cases hc : g.has_node n = true
  · simp [hc] at h
  · rw [if_neg (by simp [hc])] at h
    refine ⟨by cases h; rfl, ?_⟩
    intro hmem
    exact hc ((has_node_true_iff g n).mpr hmem)

theorem add_node_error {g : Graph} {n : Node} {e : String}
    (h : g.add_node n = Except.error e) :
    e = "Duplicate node" ∧ n.name ∈ g.nodes.map Node.name := by
  unfold Graph.add_node at h
  by_cases hc : g.has_node n = true
  · rw [if_pos hc] at h
    cases h
    exact ⟨rfl, (has_node_true_iff g n).mp hc⟩
  · rw [if_neg (by simp [hc])] at h
    cases h

theorem add_node_not_error {g : Graph} {n : Node}
    (h : n.name ∉ g.nodes.map Node.name) :
    g.add_node n = Except.ok (Graph.mk (g.nodes ++ [n]) (g.edges ++ [(n.name, [])])) := by
  unfold Graph.add_node
  rw [if_neg]
  simp only [Bool.not_eq_true]
  rw [Bool.eq_false_iff]
  intro hc
  exact h ((has_node_true_iff g n).mp hc)

theorem add_edge_nodes {g : Graph} {e : WeightedEdge} {g' : Graph}
    (h : g.add_edge e = Except.ok g') : g'.nodes = g.nodes := by
  unfold Graph.add_edge at h
  by_cases h1 : g.has_node e.src = true
  · by_cases h2 : g.has_node e.dest = true
    · rw [if_neg (by simp [h1]), if_neg (by simp [h2])] at h
      cases h; rfl
    · rw [if_neg (by simp [h1]), if_pos (by simp [h2])] at h
      cases h
  · rw [if_pos (by simp [h1])] at h
    cases h

theorem add_edge_ok {g : Graph} {e : WeightedEdge}
    (h1 : e.src.name ∈ g.nodes.map Node.name)
    (h2 : e.dest.name ∈ g.nodes.map Node.name) :
    ∃ g', g.add_edge e = Except.ok g' ∧ g'.nodes = g.nodes := by
  unfold Graph.add_edge
  rw [if_neg (by simp [(has_node_true_iff g e.src).mpr h1]),
      if_neg (by simp [(has_node_true_iff g e.dest).mpr h2])]
  exact ⟨_, rfl, rfl⟩

theorem setIsoFalse_map_name (ns : List Node) (c : ℚ × ℚ) :
    (setIsoFalse ns c).map Node.name = ns.map Node.name := by
  unfold setIsoFalse
  rw [List.map_map]
  apply List.map_congr_left
  intro m _
  by_cases hm : m.name = c <;> simp [hm, change_iso_name]

theorem shadow_refl (ns : List Node) : Shadow ns ns := by
  induction ns with
  | nil => trivial
  | cons a ns ih => exact ⟨Or.inl rfl, ih⟩

theorem shadow_trans {ns ms ks : List Node}
    (h1 : Shadow ns ms) (h2 : Shadow ms ks) : Shadow ns ks := by
  induction ns generalizing ms ks with
  | nil =>
    cases ms with
    | nil => cases ks with
      | nil => trivial
      | cons c ks => exact absurd h2 (by simp [Shadow])
    | cons b ms => exact absurd h1 (by simp [Shadow])
  | cons a ns ih =>
    cases ms with
    | nil => exact absurd h1 (by simp [Shadow])
    | cons b ms =>
      cases ks with
      | nil => exact absurd h2 (by simp [Shadow])
      | cons c ks =>
        obtain ⟨hab, h1'⟩ := h1
        obtain ⟨hbc, h2'⟩ := h2
        refine ⟨?_, ih h1' h2'⟩
        rcases hab with rfl | rfl
        · exact hbc
        · rcases hbc with rfl | rfl
          · exact Or.inr rfl
          · exact Or.inr rfl

theorem shadow_append {ns ms ns' ms' : List Node}
    (h1 : Shadow ns ms) (h2 : Shadow ns' ms') :
    Shadow (ns ++ ns') (ms ++ ms') := by
  induction ns generalizing ms with
  | nil =>
    cases ms with
    | nil => simpa using h2
    | cons b ms => exact absurd h1 (by simp [Shadow])
  | cons a ns ih =>
    cases ms with
    | nil => exact absurd h1 (by simp [Shadow])
    | cons b ms =>
      obtain ⟨hab, h1'⟩ := h1
      exact ⟨hab, ih h1'⟩

theorem shadow_setIsoFalse (ns : List Node) (c : ℚ × ℚ) :
    Shadow ns (setIsoFalse ns c) := by
  induction ns with
  | nil => trivial
  | cons a ns ih =>
    refine ⟨?_, ih⟩
    by_cases ha : a.name = c <;> simp [ha]

theorem shadow_map_idxName {ns ms : List Node} (h : Shadow ns ms) :
    ms.map idxName = ns.map idxName := by
  induction ns generalizing ms with
  | nil =>
    cases ms with
    | nil => rfl
    | cons b ms => exact absurd h (by simp [Shadow])
  | cons a ns ih =>
    cases ms with
    | nil => exact absurd h (by simp [Shadow])
    | cons b ms =>
      obtain ⟨hab, h'⟩ := h
      have hb : idxName b = idxName a := by
        rcases hab with rfl | rfl
        · rfl
        · rfl
      simp [hb, ih h']

theorem shadow_map_name {ns ms : List Node} (h : Shadow ns ms) :
    ms.map Node.name = ns.map Node.name := by
  have h2 := congrArg (List.map Prod.snd) (shadow_map_idxName h)
  simpa [List.map_map, Function.comp, idxName] using h2

theorem shadow_map_index {ns ms : List Node} (h : Shadow ns ms) :
    ms.map Node.index = ns.map Node.index := by
  have h2 := congrArg (List.map Prod.fst) (shadow_map_idxName h)
  simpa [List.map_map, Function.comp, idxName] using h2

theorem add_node_dup {g : Graph} {n : Node}
    (h : n.name ∈ g.nodes.map Node.name) :
    g.add_node n = Except.error "Duplicate node" := by
  unfold Graph.add_node
  rw [if_pos ((has_node_true_iff g n).mpr h)]

theorem pairLoop_shadow {close : Node → Node → Bool} {new : Node} :
    ∀ (olds : List Node) (g g' : Graph),
      pairLoop close new olds g = Except.ok g' → Shadow g.nodes g'.nodes
  | [], g, g', h => by
    simp only [pairLoop] at h
    cases h
    exact shadow_refl _
  | old :: rest, g, g', h => by
    simp only [pairLoop] at h
    by_cases h1 : old.name = new.name
    · rw [if_pos h1] at h
      exact pairLoop_shadow rest g g' h
    · rw [if_neg h1] at h
      cases heq : g.add_edge (WeightedEdge.mk new old (sq_dist new old)) with
      | error e => simp [heq] at h
      | ok g1 =>
        simp only [heq] at h
        have hnodes : g1.nodes = g.nodes := add_edge_nodes heq
        by_cases h2 : (flagOf g1.nodes new.name && close new old) = true
        · rw [if_pos h2] at h
          have hs := pairLoop_shadow rest _ g' h
          refine shadow_trans ?_ hs
          rw [← hnodes]
          exact shadow_trans (shadow_setIsoFalse g1.nodes new.name)
            (shadow_setIsoFalse _ old.name)
        · rw [if_neg h2] at h
          have hs := pairLoop_shadow rest g1 g' h
          rwa [hnodes] at hs

theorem pairLoop_ok {close : Node → Node → Bool} {new : Node} :
    ∀ (olds : List Node) (g : Graph),
      (∀ o ∈ olds, o.name ∈ g.nodes.map Node.name) →
      new.name ∈ g.nodes.map Node.name →
      ∃ g', pairLoop close new olds g = Except.ok g'
  | [], g, _, _ => ⟨g, rfl⟩
  | old :: rest, g, ho, hn => by
    simp only [pairLoop]
    by_cases h1 : old.name = new.name
    · rw [if_pos h1]
      exact pairLoop_ok rest g (fun o hmem => ho o (List.mem_cons_of_mem _ hmem)) hn
    · rw [if_neg h1]
      obtain ⟨g1, heq, hnodes⟩ :=
        @add_edge_ok g (WeightedEdge.mk new old (sq_dist new old))
          hn (ho old (List.mem_cons_self _ _))
      simp only [heq]
      by_cases h2 : (flagOf g1.nodes new.name && close new old) = true
      · simp only [if_pos h2]
        apply pairLoop_ok rest
        · intro o hmem
          rw [setIsoFalse_map_name, setIsoFalse_map_name, hnodes]
          exact ho o (List.mem_cons_of_mem _ hmem)
        · rw [setIsoFalse_map_name, setIsoFalse_map_name, hnodes]
          exact hn
      · simp only [if_neg h2]
        apply pairLoop_ok rest
        · intro o hmem
          rw [hnodes]
          exact ho o (List.mem_cons_of_mem _ hmem)
        · rw [hnodes]; exact hn

theorem loadLoop_shadow {σ : List Node → List Node} {close : Node → Node → Bool} :
    ∀ (l : List (ℚ × ℚ)) (k : ℕ) (g g' : Graph),
      loadLoop σ close l k g = Except.ok g' →
      Shadow (g.nodes ++ newNodes k l) g'.nodes
  | [], k, g, g', h => by
    simp only [loadLoop] at h
    cases h
    simp only [newNodes, List.append_nil]
    exact shadow_refl _
  | t :: rest, k, g, g', h => by
    simp only [loadLoop] at h
    cases han : g.add_node (Node.mk t k true) with
    | error e => simp [han] at h
    | ok g1 =>
      simp only [han] at h
      cases hpl : pairLoop close (Node.mk t k true) (σ g1.nodes) g1 with
      | error e => simp [hpl] at h
      | ok g2 =>
        simp only [hpl] at h
        have hih := loadLoop_shadow rest (k + 1) g2 g' h
        have h1 : g1.nodes = g.nodes ++ [Node.mk t k true] := (add_node_ok han).1
        have hsh : Shadow (g1.nodes ++ newNodes (k + 1) rest)
            (g2.nodes ++ newNodes (k + 1) rest) :=
          shadow_append (pairLoop_shadow _ _ _ hpl) (shadow_refl _)
        have : g.nodes ++ newNodes k (t :: rest)
            = g1.nodes ++ newNodes (k + 1) rest := by
          rw [h1]
          simp [newNodes]
        rw [this]
        exact shadow_trans hsh hih

theorem loadLoop_error_char {σ : List Node → List Node} {close : Node → Node → Bool}
    (hσ : IterOrder σ) :
    ∀ (l : List (ℚ × ℚ)) (k : ℕ) (g : Graph),
      (∀ e, loadLoop σ close l k g = Except.error e → e = "Duplicate node") ∧
      ((∃ e, loadLoop σ close l k g = Except.error e) ↔
        HasDupFrom (g.nodes.map Node.name) l)
  | [], k, g => by
    constructor
    · intro e h
      simp [loadLoop] at h
    · constructor
      · rintro ⟨e, h⟩
        simp [loadLoop] at h
      · intro h
        exact absurd h (by simp [HasDupFrom])
  | t :: rest, k, g => by
    by_cases hmem : t ∈ g.nodes.map Node.name
    · have han : g.add_node (Node.mk t k true) = Except.error "Duplicate node" :=
        add_node_dup hmem
      constructor
      · intro e h
        simp only [loadLoop, han, Except.error.injEq] at h
        exact h.symm
      · constructor
        · intro _
          exact Or.inl hmem
        · intro _
          exact ⟨"Duplicate node", by simp only [loadLoop, han]⟩
    · have han := @add_node_not_error g (Node.mk t k true) hmem
      set g1 : Graph := Graph.mk (g.nodes ++ [Node.mk t k true])
        (g.edges ++ [(t, [])]) with hg1
      have hnew : (Node.mk t k true).name ∈ g1.nodes.map Node.name := by
        simp [hg1]
      obtain ⟨g2, hpl⟩ := @pairLoop_ok close (Node.mk t k true)
        (σ g1.nodes) g1
        (fun o hmem' => List.mem_map_of_mem Node.name ((hσ g1.nodes).subset hmem'))
        hnew
      have hg2names : g2.nodes.map Node.name = g.nodes.map Node.name ++ [t] := by
        have := shadow_map_name (pairLoop_shadow _ _ _ hpl)
        rw [this, hg1]
        simp
      have hstep : loadLoop σ close (t :: rest) k g = loadLoop σ close rest (k + 1) g2 := by
        simp only [loadLoop, han, hpl]
      obtain ⟨ih1, ih2⟩ := loadLoop_error_char hσ rest (k + 1) g2
      constructor
      · intro e h
        rw [hstep] at h
        exact ih1 e h
      · rw [hstep]
        have : HasDupFrom (g.nodes.map Node.name) (t :: rest)
            ↔ HasDupFrom (g.nodes.map Node.name ++ [t]) rest := by
          simp only [HasDupFrom]
          exact or_iff_right hmem
        rw [this, ← hg2names]
        exact ih2

/-!
Claim theorems.
-/

/-- C7: the distance computed by calculate_dist is symmetric: for every pair
of nodes a and b, calculate_dist a b = calculate_dist b a exactly. -/
theorem calculate_dist_symm (a b : Node) :
    calculate_dist a b = calculate_dist b a := by
  unfold calculate_dist
  rw [sq_dist_comm]

/-- C1 (code bug evaluation): on input [(0,0),(0,2),(0,1)] with dist_min =
3/2, run with the insertion iteration order (an admissible set order), the
resolver returns index 1 even though the star at index 1 is at
calculate_dist-distance 1 < 3/2 from the star at index 2.  The guard
if new_node.get_iso() is True in load_graph stops marking old nodes once the
new node is already non-isolated, so the close pair (1,2) never marks node 1;
the same happens under the reversed order with node 0 instead. -/
theorem isolated_returns_non_isolated_star :
    IterOrder id ∧
    isolated id [(0, 0), (0, 2), (0, 1)] (3 / 2) = Except.ok [1] ∧
    calculate_dist (Node.mk (0, 2) 1 true) (Node.mk (0, 1) 2 true)
      < ((3 / 2 : ℚ) : ℝ) := by
  refine ⟨fun l => List.Perm.refl l, ?_, ?_⟩
  · norm_num [isolated, isolatedC, load_graphC, loadLoop, pairLoop, Graph.add_node,
      Graph.add_edge, Graph.has_node, flagOf, setIsoFalse, distLt, sq_dist, pyInt,
      Node.change_iso, Prod.mk.injEq, List.find?, List.filter, -Prod.mk_zero_zero]
  · rw [← distLt_iff]
    norm_num [distLt, sq_dist, pyInt]

/-- C2 (code bug evaluation): threshold monotonicity fails on the input
[(0,0),(0,10),(0,8)]: at dist_min = 3 the result is [0] (so 1 is
non-isolated), while at the larger dist_min = 9 the result is [1] (so 1 is
again reported isolated).  Root cause is the same guard as in C1. -/
theorem isolated_monotonicity_violation :
    IterOrder id ∧ (3 : ℚ) ≤ 9 ∧
    ∃ r3 r9, isolated id [(0, 0), (0, 10), (0, 8)] 3 = Except.ok r3 ∧
      isolated id [(0, 0), (0, 10), (0, 8)] 9 = Except.ok r9 ∧
      ∃ i, i ∉ r3 ∧ i ∈ r9 := by
  refine ⟨fun l => List.Perm.refl l, by norm_num, [0], [1], ?_, ?_, 1, by simp, by simp⟩
  · norm_num [isolated, isolatedC, load_graphC, loadLoop, pairLoop, Graph.add_node,
      Graph.add_edge, Graph.has_node, flagOf, setIsoFalse, distLt, sq_dist, pyInt,
      Node.change_iso, Prod.mk.injEq, List.find?, List.filter, -Prod.mk_zero_zero]
  · norm_num [isolated, isolatedC, load_graphC, loadLoop, pairLoop, Graph.add_node,
      Graph.add_edge, Graph.has_node, flagOf, setIsoFalse, distLt, sq_dist, pyInt,
      Node.change_iso, Prod.mk.injEq, List.find?, List.filter, -Prod.mk_zero_zero]

/-- C3 (counterexample): with the reversed iteration order, an admissible set
iteration order, the input [(0,0),(9,9)] at dist_min = 1 returns [1, 0],
which is not ascending by input position: the output sequence follows the
hash set's iteration order, which the source does not control. -/
theorem isolated_output_not_ascending :
    IterOrder List.reverse ∧
    isolated List.reverse [(0, 0), (9, 9)] 1 = Except.ok [1, 0] ∧
    ¬ List.Sorted (· ≤ ·) [1, 0] := by
  refine ⟨fun l => l.reverse_perm, ?_, by decide⟩
  norm_num [isolated, isolatedC, load_graphC, loadLoop, pairLoop, Graph.add_node,
    Graph.add_edge, Graph.has_node, flagOf, setIsoFalse, distLt, sq_dist, pyInt,
    Node.change_iso, Prod.mk.injEq, List.find?, List.filter, -Prod.mk_zero_zero,
    List.reverse]

/-- C3 (amended): for a fixed iteration order the output is a deterministic
function of the input, and under the insertion iteration order (sigma = id)
the returned indices are strictly ascending by input position. -/
theorem isolated_output_ascending_insertion_order
    (l : List (ℚ × ℚ)) (d : ℚ) (r : List ℕ)
    (h : isolated id l d = Except.ok r) : List.Sorted (· < ·) r := by
  obtain ⟨g, hg, hr⟩ := isolatedC_ok_iff.mp h
  have hsh := loadLoop_shadow l 0 (Graph.mk [] []) g hg
  have hmap : g.nodes.map Node.index = List.range l.length := by
    rw [shadow_map_index hsh]
    simp [newNodes_map_index, List.range_eq_range']
  have hsub : List.Sublist r (g.nodes.map Node.index) := by
    rw [hr]
    exact (List.filter_sublist _).map _
  rw [hmap] at hsub
  exact (List.sorted_lt_range l.length).sublist hsub

/-- Witness for the amended C3 statement at a concrete input. -/
theorem isolated_output_ascending_insertion_order_witness :
    List.Sorted (· < ·) [0, 1] :=
  isolated_output_ascending_insertion_order [(0, 0), (9, 9)] 1 [0, 1]
    (by norm_num [isolated, isolatedC, load_graphC, loadLoop, pairLoop,
      Graph.add_node, Graph.add_edge, Graph.has_node, flagOf, setIsoFalse,
      distLt, sq_dist, pyInt, Node.change_iso, Prod.mk.injEq, List.find?,
      List.filter, -Prod.mk_zero_zero])

/-- C4: isolated raises an error exactly when the input list contains a
coordinate pair equal to an earlier one (the list is not Nodup), for every
admissible set iteration order; and on an error no result is returned. -/
theorem isolated_error_iff_duplicate (sigma : List Node → List Node)
    (hσ : IterOrder sigma) (l : List (ℚ × ℚ)) (d : ℚ) :
    ((∃ e, isolated sigma l d = Except.error e) ↔ ¬ l.Nodup) ∧
    (∀ e r, isolated sigma l d = Except.error e →
      isolated sigma l d ≠ Except.ok r) := by
  constructor
  · have h2 := (@loadLoop_error_char sigma (fun a b => distLt a b d) hσ
      l 0 (Graph.mk [] [])).2
    exact isolatedC_error_iff.trans
      (h2.trans ((HasDupFrom_iff l []).trans (by simp)))
  · intro e r he hr
    rw [he] at hr
    exact absurd hr (by simp)

/-- Witness for C4: the duplicate input [(1,1),(1,1)] is rejected, via the
claim theorem applied at the insertion order. -/
theorem isolated_error_iff_duplicate_witness :
    ¬ ([(1, 1), (1, 1)] : List (ℚ × ℚ)).Nodup :=
  ((isolated_error_iff_duplicate id (fun l => List.Perm.refl l)
      [(1, 1), (1, 1)] 5).1).mp
    ⟨"Duplicate node", by norm_num [isolated, isolatedC, load_graphC, loadLoop,
      pairLoop, Graph.add_node, Graph.add_edge, Graph.has_node, flagOf,
      setIsoFalse, distLt, sq_dist, pyInt, Node.change_iso, Prod.mk.injEq,
      List.find?, List.filter, -Prod.mk_zero_zero]⟩

/-- C10: on the only call path into add_edge (load_graph, hence isolated),
both endpoint membership checks always succeed: for every admissible
iteration order, the only error load_graph can produce is the duplicate-node
one, and the two add_edge error branches are unreachable. -/
theorem add_edge_branches_unreachable (sigma : List Node → List Node)
    (hσ : IterOrder sigma) (l : List (ℚ × ℚ)) (d : ℚ) :
    (∀ e, load_graph sigma l d = Except.error e → e = "Duplicate node") ∧
    load_graph sigma l d ≠ Except.error "Source node not in graph" ∧
    load_graph sigma l d ≠ Except.error "Destination node not in graph" := by
  have h1 := (@loadLoop_error_char sigma (fun a b => distLt a b d) hσ
    l 0 (Graph.mk [] [])).1
  refine ⟨h1, fun hbad => ?_, fun hbad => ?_⟩
  · exact absurd (h1 _ hbad) (by decide)
  · exact absurd (h1 _ hbad) (by decide)

/-- Witness for C10 at a concrete duplicate input and the insertion order. -/
theorem add_edge_branches_unreachable_witness :
    load_graph id [(1, 1), (1, 1)] 5 ≠ Except.error "Source node not in graph" :=
  (add_edge_branches_unreachable id (fun l => List.Perm.refl l)
    [(1, 1), (1, 1)] 5).2.1

theorem newNodes_is_iso : ∀ (l : List (ℚ × ℚ)) (k : ℕ) (n : Node),
    n ∈ newNodes k l → n.is_iso = true
  | [], _, n, h => by simp [newNodes] at h
  | t :: rest, k, n, h => by
    simp only [newNodes, List.mem_cons] at h
    rcases h with rfl | h'
    · rfl
    · exact newNodes_is_iso rest (k + 1) n h'

/-- C9: every index returned by isolated is the 0-based position of a
coordinate pair in the input (it is < the input length), no index repeats,
and the node indices recorded by a successful load are exactly 0..n-1 in
construction order — the index assigned at construction, never reassigned. -/
theorem isolated_indices_valid (sigma : List Node → List Node)
    (hσ : IterOrder sigma) (l : List (ℚ × ℚ)) (d : ℚ) :
    (∀ r, isolated sigma l d = Except.ok r →
      r.Nodup ∧ ∀ i ∈ r, i < l.length) ∧
    (∀ g, load_graph sigma l d = Except.ok g →
      g.nodes.map Node.index = List.range l.length) := by
  have hgmap : ∀ g, load_graph sigma l d = Except.ok g →
      g.nodes.map Node.index = List.range l.length := by
    intro g hg
    have hsh := loadLoop_shadow l 0 (Graph.mk [] []) g hg
    rw [shadow_map_index hsh]
    simp [newNodes_map_index, List.range_eq_range']
  refine ⟨?_, hgmap⟩
  intro r hr
  obtain ⟨g, hg, hrr⟩ := isolatedC_ok_iff.mp hr
  have hmap : g.nodes.map Node.index = List.range l.length := hgmap g hg
  have hperm : ((sigma g.nodes).map Node.index).Perm (List.range l.length) := by
    rw [← hmap]
    exact (hσ g.nodes).map Node.index
  have hsub : List.Sublist r ((sigma g.nodes).map Node.index) := by
    rw [hrr]
    exact (List.filter_sublist _).map _
  constructor
  · exact (hperm.nodup_iff.mpr (List.nodup_range l.length)).sublist hsub
  · intro i hi
    exact List.mem_range.mp (hperm.subset (hsub.subset hi))

/-- Witness for C9 at the single-point input with the insertion order. -/
theorem isolated_indices_valid_witness :
    ([0] : List ℕ).Nodup ∧
    ∀ i ∈ ([0] : List ℕ), i < ([(0, 0)] : List (ℚ × ℚ)).length :=
  (isolated_indices_valid id (fun l => List.Perm.refl l) [(0, 0)] 1).1 [0]
    (by norm_num [isolated, isolatedC, load_graphC, loadLoop, pairLoop,
      Graph.add_node, Graph.add_edge, Graph.has_node, flagOf, setIsoFalse,
      distLt, sq_dist, pyInt, Node.change_iso, Prod.mk.injEq, List.find?,
      List.filter, -Prod.mk_zero_zero])

/-- C8: the isolation flag is monotone: every node is constructed with
is_iso True; change_iso sets it to False and is idempotent; and the node
list of any successful load is the freshly constructed all-True node list
with some flags cleared by change_iso (Shadow) — no operation reachable from
isolated ever turns a node's is_iso from False back to True. -/
theorem is_iso_monotone :
    (∀ (k : ℕ) (l : List (ℚ × ℚ)) (n : Node),
      n ∈ newNodes k l → n.is_iso = true) ∧
    (∀ n : Node,
      n.change_iso.is_iso = false ∧ n.change_iso.change_iso = n.change_iso) ∧
    (∀ (sigma : List Node → List Node) (close : Node → Node → Bool)
      (l : List (ℚ × ℚ)) (g : Graph),
      load_graphC sigma close l = Except.ok g → Shadow (newNodes 0 l) g.nodes) := by
  refine ⟨fun k l n h => newNodes_is_iso l k n h, fun n => ⟨rfl, rfl⟩, ?_⟩
  intro sigma close l g hg
  have h := loadLoop_shadow l 0 (Graph.mk [] []) g hg
  simpa using h

/-- Witness for C8 at the single-point input. -/
theorem is_iso_monotone_witness :
    (Node.mk ((0 : ℚ), (0 : ℚ)) 0 true).is_iso = true ∧
    Shadow (newNodes 0 [(0, 0)])
      (Graph.mk [Node.mk (0, 0) 0 true] [((0, 0), [])]).nodes :=
  ⟨is_iso_monotone.1 0 [(0, 0)] (Node.mk (0, 0) 0 true) (by simp [newNodes]),
   is_iso_monotone.2.2 id (fun a b => distLt a b 1) [(0, 0)]
     (Graph.mk [Node.mk (0, 0) 0 true] [((0, 0), [])])
     (by norm_num [load_graphC, loadLoop, pairLoop, Graph.add_node,
       Graph.add_edge, Graph.has_node, flagOf, setIsoFalse, distLt, sq_dist,
       pyInt, Node.change_iso, Prod.mk.injEq, List.find?, -Prod.mk_zero_zero])⟩

/-- C6: calculate_dist computes the Euclidean distance between the two
coordinate pairs after each coordinate has been truncated by int(): it equals
the Euclidean-plane distance of the truncated points, and pyInt is exactly
truncation toward zero (magnitude within one below, sign preserved). -/
theorem calculate_dist_euclidean_truncated :
    (∀ a b : Node, calculate_dist a b = dist (toPoint a) (toPoint b)) ∧
    (∀ x : ℚ, |((pyInt x : ℤ) : ℚ)| ≤ |x| ∧ |x| < |((pyInt x : ℤ) : ℚ)| + 1 ∧
      (0 ≤ x → 0 ≤ pyInt x) ∧ (x ≤ 0 → pyInt x ≤ 0)) := by
  constructor
  · intro a b
    rw [EuclideanSpace.dist_eq]
    unfold calculate_dist toPoint
    congr 1
    rw [Fin.sum_univ_two]
    simp only [Matrix.cons_val_zero, Matrix.cons_val_one, Matrix.head_cons,
      Real.dist_eq, sq_abs]
    unfold sq_dist
    push_cast
    ring
  · intro x
    unfold pyInt
    by_cases hx : 0 ≤ x
    · rw [if_pos hx]
      have h0 : (0 : ℤ) ≤ ⌊x⌋ := Int.floor_nonneg.mpr hx
      have h0' : (0 : ℚ) ≤ ((⌊x⌋ : ℤ) : ℚ) := by exact_mod_cast h0
      rw [abs_of_nonneg hx, abs_of_nonneg h0']
      refine ⟨Int.floor_le x, by linarith [Int.lt_floor_add_one x],
        fun _ => h0, fun hx0 => ?_⟩
      have hx00 : x = 0 := le_antisymm hx0 hx
      simp [hx00]
    · rw [if_neg hx]
      have hxlt : x < 0 := lt_of_not_ge hx
      have hc0 : ⌈x⌉ ≤ 0 := Int.ceil_le.mpr (by exact_mod_cast le_of_lt hxlt)
      have hc0' : ((⌈x⌉ : ℤ) : ℚ) ≤ 0 := by exact_mod_cast hc0
      rw [abs_of_nonpos (le_of_lt hxlt), abs_of_nonpos hc0']
      exact ⟨by linarith [Int.le_ceil x], by linarith [Int.ceil_lt_add_one x],
        fun h0 => absurd h0 hx, fun _ => hc0⟩

/-- Witness for C6 at concrete nodes and a concrete fractional coordinate. -/
theorem calculate_dist_euclidean_truncated_witness :
    0 ≤ ((3 : ℚ) / 2) ∧ 0 ≤ pyInt (3 / 2) ∧
    calculate_dist (Node.mk ((3 : ℚ) / 2, 0) 0 true) (Node.mk (0, 0) 1 true)
      = dist (toPoint (Node.mk ((3 : ℚ) / 2, 0) 0 true))
          (toPoint (Node.mk (0, 0) 1 true)) :=
  ⟨by norm_num, (calculate_dist_euclidean_truncated.2 (3 / 2)).2.2.1 (by norm_num),
   calculate_dist_euclidean_truncated.1 _ _⟩

/-- Symbolic evaluation of load_graphC on a two-point input with distinct
coordinate pairs, for any admissible iteration order: the two nodes end up
with both flags cleared when the pair test fires, and untouched otherwise;
one edge from the second node to the first is recorded either way. -/
theorem load_graphC_two (sigma : List Node → List Node) (hσ : IterOrder sigma)
    (close : Node → Node → Bool) (p q : ℚ × ℚ) (hpq : p ≠ q) :
    load_graphC sigma close [p, q] =
      Except.ok (Graph.mk
        (if close (Node.mk q 1 true) (Node.mk p 0 true) = true
          then [Node.mk p 0 false, Node.mk q 1 false]
          else [Node.mk p 0 true, Node.mk q 1 true])
        [(p, []), (q, [WeightedEdge.mk (Node.mk q 1 true) (Node.mk p 0 true)
          (sq_dist (Node.mk q 1 true) (Node.mk p 0 true))])]) := by
  have hqp : q ≠ p := Ne.symm hpq
  have hs1 : sigma [Node.mk p 0 true] = [Node.mk p 0 true] :=
    List.perm_singleton.mp (hσ _)
  rcases perm_pair_cases (hσ [Node.mk p 0 true, Node.mk q 1 true]) with hs2 | hs2 <;>
  cases hc : close (Node.mk q 1 true) (Node.mk p 0 true) <;>
  simp [load_graphC, loadLoop, pairLoop, Graph.add_node, Graph.add_edge,
    Graph.has_node, flagOf, setIsoFalse, Node.change_iso, hpq, hqp, hs1, hs2, hc,
    List.find?, Prod.mk.injEq]

/-- C5: the isolation comparison is strictly less-than.  For a two-point
input with distinct coordinate pairs, and any pair test that decides
calculate_dist _ _ < dist_min: when dist_min equals the distance between the
two points, both indices are returned (as a permutation of [0, 1] in the
set's iteration order); for every dist_min strictly above that distance,
neither index is returned. -/
theorem isolated_strict_threshold_boundary (sigma : List Node → List Node)
    (hσ : IterOrder sigma) (p q : ℚ × ℚ) (hpq : p ≠ q) :
    (∀ close : Node → Node → Bool,
      (∀ u v, close u v = true ↔
        calculate_dist u v < calculate_dist (Node.mk p 0 true) (Node.mk q 1 true)) →
      ∃ r, isolatedC sigma close [p, q] = Except.ok r ∧ r.Perm [0, 1]) ∧
    (∀ dmin : ℝ, calculate_dist (Node.mk p 0 true) (Node.mk q 1 true) < dmin →
      ∀ close : Node → Node → Bool,
      (∀ u v, close u v = true ↔ calculate_dist u v < dmin) →
      isolatedC sigma close [p, q] = Except.ok []) := by
  have hsymm : calculate_dist (Node.mk q 1 true) (Node.mk p 0 true)
      = calculate_dist (Node.mk p 0 true) (Node.mk q 1 true) := by
    unfold calculate_dist
    rw [sq_dist_comm]
  constructor
  · intro close hclose
    have hc : close (Node.mk q 1 true) (Node.mk p 0 true) = false := by
      rw [Bool.eq_false_iff]
      intro htrue
      have hlt := (hclose _ _).mp htrue
      rw [hsymm] at hlt
      exact lt_irrefl _ hlt
    have hload := load_graphC_two sigma hσ close p q hpq
    rw [hc] at hload
    simp only [Bool.false_eq_true, if_false] at hload
    refine ⟨((sigma [Node.mk p 0 true, Node.mk q 1 true]).filter
      (fun n => n.is_iso)).map Node.index, isolatedC_ok_iff.mpr ⟨_, hload, rfl⟩, ?_⟩
    have hall : ∀ n ∈ sigma [Node.mk p 0 true, Node.mk q 1 true],
        n.is_iso = true := by
      intro n hn
      have hmem : n = Node.mk p 0 true ∨ n = Node.mk q 1 true := by
        simpa using (hσ _).subset hn
      rcases hmem with rfl | rfl <;> rfl
    rw [List.filter_eq_self.mpr hall]
    have hperm := ((hσ [Node.mk p 0 true, Node.mk q 1 true]).map Node.index)
    simpa using hperm
  · intro dmin hd close hclose
    have hc : close (Node.mk q 1 true) (Node.mk p 0 true) = true :=
      (hclose _ _).mpr (by rw [hsymm]; exact hd)
    have hload := load_graphC_two sigma hσ close p q hpq
    rw [hc] at hload
    simp only [if_true] at hload
    apply isolatedC_ok_iff.mpr
    refine ⟨_, hload, ?_⟩
    have hnone : ∀ n ∈ sigma [Node.mk p 0 false, Node.mk q 1 false],
        ¬ n.is_iso = true := by
      intro n hn
      have hmem : n = Node.mk p 0 false ∨ n = Node.mk q 1 false := by
        simpa using (hσ _).subset hn
      rcases hmem with rfl | rfl <;> simp
    rw [List.filter_eq_nil_iff.mpr hnone]
    simp

/-- Witness for C5: the points (0,0), (3,4) at calculate_dist-distance
exactly 5: with dist_min = 5 both stars are isolated; with dist_min = 6
neither is. -/
theorem isolated_strict_threshold_boundary_witness :
    (∃ r, isolated id [(0, 0), (3, 4)] 5 = Except.ok r ∧ r.Perm [0, 1]) ∧
    isolated id [(0, 0), (3, 4)] 6 = Except.ok [] := by
  have hσ : IterOrder id := fun l => List.Perm.refl l
  have hpq : ((0 : ℚ), (0 : ℚ)) ≠ ((3 : ℚ), (4 : ℚ)) := by norm_num [Prod.ext_iff]
  have hthm := isolated_strict_threshold_boundary id hσ (0, 0) (3, 4) hpq
  have h25 : ((sq_dist (Node.mk ((0 : ℚ), (0 : ℚ)) 0 true)
      (Node.mk ((3 : ℚ), (4 : ℚ)) 1 true) : ℤ) : ℝ) = 5 ^ 2 := by
    norm_num [sq_dist, pyInt]
  have hd5 : calculate_dist (Node.mk ((0 : ℚ), (0 : ℚ)) 0 true)
      (Node.mk ((3 : ℚ), (4 : ℚ)) 1 true) = 5 := by
    unfold calculate_dist
    rw [h25, Real.sqrt_sq (by norm_num : (0 : ℝ) ≤ 5)]
  constructor
  · exact hthm.1 (fun a b => distLt a b 5)
      (fun u v => by rw [hd5]; exact (distLt_iff u v 5).trans (by norm_num))
  · exact hthm.2 6 (by rw [hd5]; norm_num) (fun a b => distLt a b 6)
      (fun u v => (distLt_iff u v 6).trans (by norm_num))
